import Mathlib

/-!
C-Prep: thread-safe queue, producer/consumer scenario, parallel sum.

A shallow embedding of three programs of the repository:

* `ThreadSafeQueue<T>` (`memory_fix.cpp`, "thread-safe queue in C++"): a
  `std::queue<T>` behind one mutex.  Every public method is a single critical
  section, so a method is one atomic function on the stored sequence.
* the producer/consumer scenario (`memory_fix.cpp`): the globals `taskQueue`
  and `stopProcessing`, the functions `producer` and `consumer`, and `main`.
* `parallelSum` (`Sum_of_vectors.cpp`).

A `std::queue` is a list whose head is `front()` and to whose end `push`
appends.
-/

namespace CPrep

/-! ## `ThreadSafeQueue<T>` -/

/-- The class `ThreadSafeQueue<T>`: its only data member besides the mutex and
the condition variable is the underlying `std::queue<T> queue`. -/
structure ThreadSafeQueue (T : Type) where
  queue : List T
deriving DecidableEq

namespace ThreadSafeQueue

variable {T : Type}

/-- The default constructor: an empty queue. -/
def empty : ThreadSafeQueue T := ⟨[]⟩

/-- The method `void enqueue(const T& item)`: `queue.push(item)` under the lock. -/
def enqueue (q : ThreadSafeQueue T) (item : T) : ThreadSafeQueue T :=
  ⟨q.queue ++ [item]⟩

/-- The method `T dequeue()`: waits on `!queue.empty()`, then takes `front()` and
`pop()`s.  With no other thread to push, the wait on an empty queue never
returns; that is the result `none`. -/
def dequeue (q : ThreadSafeQueue T) : Option (T × ThreadSafeQueue T) :=
  match q.queue with
  | [] => none
  | item :: rest => some (item, ⟨rest⟩)

/-- The method `std::optional<T> tryDequeue()`: `std::nullopt` on an empty queue,
otherwise `front()` followed by `pop()`. -/
def tryDequeue (q : ThreadSafeQueue T) : Option T × ThreadSafeQueue T :=
  match q.queue with
  | [] => (none, q)
  | item :: rest => (some item, ⟨rest⟩)

/-- The method `bool isEmpty() const`. -/
def isEmpty (q : ThreadSafeQueue T) : Bool := q.queue.isEmpty

/-- The method `size_t size() const`. -/
def size (q : ThreadSafeQueue T) : Nat := q.queue.length

/-- Calls `enqueue` on each element of `xs`, in order. -/
def enqueueAll (xs : List T) (q : ThreadSafeQueue T) : ThreadSafeQueue T :=
  xs.foldl enqueue q

/-- Calls `dequeue` `n` times in a row and collects the returned items in call
order; `none` when one of the calls blocks. -/
def dequeueN : Nat → ThreadSafeQueue T → Option (List T × ThreadSafeQueue T)
  | 0, q => some ([], q)
  | n + 1, q =>
    match q.dequeue with
    | none => none
    | some (item, q1) =>
      match dequeueN n q1 with
      | none => none
      | some (items, q2) => some (item :: items, q2)

/-- One call on the public interface of the queue. -/
inductive Op (T : Type) where
  | enqueue (item : T)
  | dequeue
  | tryDequeue
  | size
  | isEmpty
deriving DecidableEq

/-- A queue together with two counters kept by the caller: how many `enqueue`
calls were made and how many `dequeue`/`tryDequeue` calls returned an item. -/
structure Counted (T : Type) where
  q : ThreadSafeQueue T
  enqueued : Nat
  delivered : Nat
deriving DecidableEq

/-- A fresh queue with both counters at zero. -/
def Counted.init : Counted T := ⟨empty, 0, 0⟩

/-- Performs one call and updates the counters.  `none`: a `dequeue` on an empty
queue, which blocks the only thread. -/
def applyOp (op : Op T) (c : Counted T) : Option (Counted T) :=
  match op with
  | .enqueue item => some ⟨c.q.enqueue item, c.enqueued + 1, c.delivered⟩
  | .dequeue =>
    match c.q.dequeue with
    | none => none
    | some (_, q1) => some ⟨q1, c.enqueued, c.delivered + 1⟩
  | .tryDequeue =>
    match c.q.tryDequeue with
    | (none, q1) => some ⟨q1, c.enqueued, c.delivered⟩
    | (some _, q1) => some ⟨q1, c.enqueued, c.delivered + 1⟩
  | .size => some c
  | .isEmpty => some c

/-- Performs a sequence of calls, first to last. -/
def runOps : List (Op T) → Counted T → Option (Counted T)
  | [], c => some c
  | op :: ops, c =>
    match applyOp op c with
    | none => none
    | some c1 => runOps ops c1

/-- The accounting relation between the stored sequence and the two counters. -/
def Accounted (c : Counted T) : Prop :=
  c.q.size + c.delivered = c.enqueued

end ThreadSafeQueue

/-! ## The producer/consumer scenario -/

/-- The shared globals of the scenario: `std::queue<int> taskQueue` and
`bool stopProcessing`, both only touched while `queueMutex` is held. -/
structure Shared where
  taskQueue : List Int
  stopProcessing : Bool
deriving DecidableEq

/-- The critical section of one iteration of `producer`: `taskQueue.push(i)`.
It reads no flag and returns nothing. -/
def producerPush (i : Int) (g : Shared) : Shared :=
  { g with taskQueue := g.taskQueue ++ [i] }

/-- The predicate of `conditionVar.wait` in `consumer`:
`!taskQueue.empty() || stopProcessing`. -/
def waitPredicate (g : Shared) : Bool :=
  !g.taskQueue.isEmpty || g.stopProcessing

/-- What one iteration of the loop of `consumer` does under the lock. -/
inductive ConsumerResult where
  /-- the wait predicate is false: the thread stays suspended in `wait` -/
  | waiting
  /-- the `break`: the consumer leaves its loop without removing anything -/
  | closed
  /-- the call `front()` gave `task`, `pop()` left the shared state `g` -/
  | task (task : Int) (g : Shared)
  /-- the calls `front()`/`pop()` applied to an empty `std::queue`: undefined
  behaviour -/
  | frontOnEmpty
deriving DecidableEq

/-- One iteration of the loop of `consumer`, from taking the lock to `unlock`:
the wait, the `if (stopProcessing && taskQueue.empty()) break;`, then
`front()` and `pop()`. -/
def consumerIteration (g : Shared) : ConsumerResult :=
  if !waitPredicate g then .waiting
  else if g.stopProcessing && g.taskQueue.isEmpty then .closed
  else
    match g.taskQueue with
    | [] => .frontOnEmpty
    | task :: rest => .task task { g with taskQueue := rest }

/-- The block `{ lock; stopProcessing = true; }` of `main`, followed by
`notify_all`. -/
def shutdown (g : Shared) : Shared :=
  { g with stopProcessing := true }

/-- The whole scenario: the shared globals, the loop variable `i` of every
producer thread, whether each consumer thread has left its loop, and the
history of the tasks pushed and popped so far, in the order of the critical
sections. -/
structure System where
  shared : Shared
  producerNext : List Nat
  consumerDone : List Bool
  pushed : List Int
  popped : List Int
deriving DecidableEq

/-- The state in which `main` has started `numProducers` producers and
`numConsumers` consumers and nobody has taken the lock yet. -/
def System.init (numProducers numConsumers : Nat) : System :=
  { shared := ⟨[], false⟩
    producerNext := List.replicate numProducers 0
    consumerDone := List.replicate numConsumers false
    pushed := []
    popped := [] }

/-- One critical section: of producer `id`, of consumer `id`, or the one of
`main` that sets the flag. -/
inductive Event where
  | push (id : Nat)
  | consume (id : Nat)
  | shutdown
deriving DecidableEq

/-- One atomic step of the threads `producer(id, numTasks)` and `consumer(id)`
and of `main`.  `none`: the event cannot happen in this state (no such thread,
a producer whose loop condition `i < numTasks` is false, a consumer that has
left its loop or is suspended in `wait`).  The loop variable `int i` of a
producer starts at 0 and only grows while it is below `numTasks`, so it is a
natural number. -/
def step (numTasks : Int) (e : Event) (s : System) : Option System :=
  match e with
  | .push id =>
    match s.producerNext[id]? with
    | none => none
    | some i =>
      if (i : Int) < numTasks then
        some { s with
          shared := producerPush (i : Int) s.shared
          producerNext := s.producerNext.set id (i + 1)
          pushed := s.pushed ++ [(i : Int)] }
      else none
  | .consume id =>
    match s.consumerDone[id]? with
    | some false =>
      match consumerIteration s.shared with
      | .task t g => some { s with shared := g, popped := s.popped ++ [t] }
      | .closed => some { s with consumerDone := s.consumerDone.set id true }
      | _ => none
    | _ => none
  | .shutdown => some { s with shared := shutdown s.shared }

/-- All producer threads have left their loop (`i < numTasks` is false), so
`main` gets past `producer.join()`. -/
def producersJoined (numTasks : Int) (s : System) : Bool :=
  s.producerNext.all (fun i => decide (¬ (i : Int) < numTasks))

/-- A step of the scenario as `main` schedules it: the flag is only set after
every producer has been joined. -/
def mainStep (numTasks : Int) (e : Event) (s : System) : Option System :=
  match e with
  | .shutdown => if producersJoined numTasks s then step numTasks e s else none
  | _ => step numTasks e s

/-- Runs a sequence of steps, first to last; `none` when one cannot happen. -/
def run (f : Event → System → Option System) : List Event → System → Option System
  | [], s => some s
  | e :: es, s =>
    match f e s with
    | none => none
    | some s1 => run f es s1

/-- The tasks one producer has pushed once its loop variable is `i`:
`0, 1, ..., i - 1`. -/
def tasksUpTo (i : Nat) : List Int :=
  (List.range i).map Int.ofNat

/-- The tasks all producers together have pushed, given their loop variables. -/
def tasksPushed : List Nat → Multiset Int
  | [] => 0
  | i :: is => (tasksUpTo i : Multiset Int) + tasksPushed is

/-- The invariant of the scenario as `main` runs it with `numProducers`
producers of `numTasks` tasks each and `numConsumers` consumers. -/
def MainInv (numProducers numTasks numConsumers : Nat) (s : System) : Prop :=
  s.popped ++ s.shared.taskQueue = s.pushed ∧
  (s.pushed : Multiset Int) = tasksPushed s.producerNext ∧
  s.producerNext.length = numProducers ∧
  (∀ i ∈ s.producerNext, i ≤ numTasks) ∧
  (s.shared.stopProcessing = true → ∀ i ∈ s.producerNext, i = numTasks) ∧
  s.consumerDone.length = numConsumers ∧
  (true ∈ s.consumerDone → s.shared.stopProcessing = true ∧ s.shared.taskQueue = [])

/-- An interleaving of scenario B: 2 producers of 5 tasks each, 3 consumers;
`main` sets the flag after the tenth push, then every consumer leaves its loop. -/
def scenarioB : List Event :=
  [Event.push 0, Event.push 0, Event.push 1, Event.consume 0, Event.consume 1,
    Event.push 0, Event.consume 2, Event.push 1, Event.push 1, Event.push 0,
    Event.consume 0, Event.push 1, Event.push 0, Event.push 1, Event.consume 1,
    Event.consume 2, Event.consume 0, Event.consume 1, Event.consume 2, Event.consume 0,
    Event.shutdown, Event.consume 1, Event.consume 0, Event.consume 2]

/-- The state at the end of `scenarioB`. -/
def scenarioBEnd : System :=
  { shared := ⟨[], true⟩
    producerNext := [5, 5]
    consumerDone := [true, true, true]
    pushed := [0, 1, 0, 2, 1, 2, 3, 3, 4, 4]
    popped := [0, 1, 0, 2, 1, 2, 3, 3, 4, 4] }

/-! ## `parallelSum` -/

/-- The number of values of `size_t` (64 bits). -/
def sizeMod : Nat := 18446744073709551616

/-- Addition of `size_t`. -/
def sizeAdd (a b : Nat) : Nat := (a + b) % sizeMod

/-- Subtraction of `size_t`, for `a, b < sizeMod`. -/
def sizeSub (a b : Nat) : Nat := (a + sizeMod - b) % sizeMod

/-- Multiplication of `size_t`. -/
def sizeMul (a b : Nat) : Nat := (a * b) % sizeMod

/-- The ways in which a call of `parallelSum` ends without returning. -/
inductive Failure where
  /-- the division `... / numThreads` with `numThreads = 0`: undefined behaviour -/
  | divisionByZero
  /-- the construction `std::vector<long long> partialSums(numThreads, 0)` (and
  `threads.reserve(numThreads)`) asked for more than `max_size()` elements:
  `std::length_error` -/
  | lengthError
  /-- the allocator could not provide the memory of `partialSums` (or of
  `threads`): `std::bad_alloc` -/
  | badAlloc
  /-- the call `threads.emplace_back(worker, i)` could not start a thread:
  `std::system_error` -/
  | threadStart
  /-- the access `data[i]` with `i` not below `data.size()`: undefined behaviour -/
  | outOfBounds
  /-- a `+=` on a `long long` whose result is not a `long long`: undefined
  behaviour -/
  | signedOverflow
deriving DecidableEq

/-- How a computation ends: it returns a value, or it fails. -/
inductive Outcome (α : Type) where
  | ok (value : α)
  | fail (failure : Failure)
deriving DecidableEq

/-- What the source leaves to the C++ library and the machine on which
`parallelSum` runs: the value of `std::vector<long long>::max_size()` (the
same bound holds for the vector of `std::thread`, whose elements have the same
size), the number of `long long` slots the allocator can provide, and the
number of threads that can be started.  A vector of `max_size()` slots of 8
bytes has a size in bytes that is a `size_t`. -/
structure Host where
  maxSize : Nat
  maxAlloc : Nat
  maxThreads : Nat
  addressable : 8 * maxSize < sizeMod

/-- A host with 64-bit `size_t` whose `max_size()` is `PTRDIFF_MAX / 8`, with
memory for `2^30` slots, and on which 32768 threads can run. -/
def exampleHost : Host :=
  { maxSize := 1152921504606846975
    maxAlloc := 1073741824
    maxThreads := 32768
    addressable := by decide }

/-- The addition `a += b` of `long long`. -/
def addLL (a b : Int) : Outcome Int :=
  if -9223372036854775808 ≤ a + b ∧ a + b ≤ 9223372036854775807 then .ok (a + b)
  else .fail .signedOverflow

/-- The local `chunkSize` of `parallelSum`:
`(dataSize + numThreads - 1) / numThreads`, evaluated left to right in `size_t`.
`none`: the division by zero of `numThreads = 0`. -/
def chunkSize (dataSize numThreads : Nat) : Option Nat :=
  if numThreads = 0 then none
  else some (sizeSub (sizeAdd dataSize numThreads) 1 / numThreads)

/-- The local `start` of the worker: `threadID * chunkSize`. -/
def chunkStart (chunk threadID : Nat) : Nat :=
  sizeMul threadID chunk

/-- The local `end` of the worker: `std::min(start + chunkSize, dataSize)`. -/
def chunkEnd (dataSize chunk threadID : Nat) : Nat :=
  min (sizeAdd (chunkStart chunk threadID) chunk) dataSize

/-- The indices the loop `for (size_t i = start; i < end; ++i)` of the worker
visits, in order; none when `end ≤ start`. -/
def chunkIndices (dataSize chunk threadID : Nat) : List Nat :=
  List.range' (chunkStart chunk threadID)
    (chunkEnd dataSize chunk threadID - chunkStart chunk threadID)

/-- The loop `for (size_t i = start; i < end; ++i) localSum += data[i];` over the
indices still to visit. -/
def sumLoop (data : List Int) : List Nat → Int → Outcome Int
  | [], localSum => .ok localSum
  | i :: rest, localSum =>
    match data[i]? with
    | none => .fail .outOfBounds
    | some x =>
      match addLL localSum x with
      | .ok s => sumLoop data rest s
      | .fail f => .fail f

/-- The lambda `worker`: the value it stores in `partialSums[threadID]`. -/
def worker (data : List Int) (chunk threadID : Nat) : Outcome Int :=
  sumLoop data (chunkIndices data.length chunk threadID) 0

/-- The threads with the given ids have run `worker` and were joined: the
values of their slots of `partialSums`, in index order.  Every thread writes its
own slot only. -/
def runWorkers (data : List Int) (chunk : Nat) : List Nat → Outcome (List Int)
  | [] => .ok []
  | threadID :: rest =>
    match worker data chunk threadID with
    | .fail f => .fail f
    | .ok v =>
      match runWorkers data chunk rest with
      | .fail f => .fail f
      | .ok vs => .ok (v :: vs)

/-- The loop `for (auto& val : partialSums) totalSum += val;`. -/
def totalLoop : List Int → Int → Outcome Int
  | [], totalSum => .ok totalSum
  | val :: rest, totalSum =>
    match addLL totalSum val with
    | .ok s => totalLoop rest s
    | .fail f => .fail f

/-- The function `parallelSum` on a given host, statement by statement:
`chunkSize`, the construction of `partialSums`, the start of the threads, the
workers, the joins, the final loop. -/
def parallelSum (host : Host) (data : List Int) (numThreads : Nat) : Outcome Int :=
  match chunkSize data.length numThreads with
  | none => .fail .divisionByZero
  | some chunk =>
    if host.maxSize < numThreads then .fail .lengthError
    else if host.maxAlloc < numThreads then .fail .badAlloc
    else if host.maxThreads < numThreads then .fail .threadStart
    else
      match runWorkers data chunk (List.range numThreads) with
      | .fail f => .fail f
      | .ok partialSums => totalLoop partialSums 0

/-! ## Theorems -/

namespace ThreadSafeQueue

variable {T : Type}

theorem enqueueAll_queue (xs : List T) (q : ThreadSafeQueue T) :
    (enqueueAll xs q).queue = q.queue ++ xs := by
  induction xs generalizing q with
  | nil => simp [enqueueAll]
  | cons x xs ih =>
    have h := ih (q.enqueue x)
    simp only [enqueueAll, List.foldl_cons] at h ⊢
    rw [h]
    simp [enqueue]

theorem dequeueN_append (xs rest : List T) :
    dequeueN xs.length (⟨xs ++ rest⟩ : ThreadSafeQueue T) = some (xs, ⟨rest⟩) := by
  induction xs with
  | nil => simp [dequeueN]
  | cons x xs ih => simp [dequeueN, dequeue, ih]

/-- C1 (FIFO): starting from an empty queue and enqueueing the elements of `xs`
in order, the next `xs.length` calls of `dequeue` all return, they return
exactly `xs` in the same order, and they leave the queue empty. -/
theorem fifo_enqueue_then_dequeue (xs : List T) :
    dequeueN xs.length (enqueueAll xs (empty : ThreadSafeQueue T)) = some (xs, empty) := by
  have h : enqueueAll xs (empty : ThreadSafeQueue T) = ⟨xs ++ []⟩ := by
    have := enqueueAll_queue xs (empty : ThreadSafeQueue T)
    cases hq : enqueueAll xs (empty : ThreadSafeQueue T) with
    | mk l =>
      rw [hq] at this
      simp only [empty, List.nil_append] at this
      simp [this]
  rw [h]
  exact dequeueN_append xs []

/-- C4 (tryDequeue): on an empty queue `tryDequeue` returns the empty optional
and leaves the queue as it is; on a queue `head :: tail` it returns `head` and
leaves `tail`.  The queue state consists of the stored sequence alone, so the
result is a function of that sequence. -/
theorem tryDequeue_spec :
    tryDequeue (⟨[]⟩ : ThreadSafeQueue T) = (none, ⟨[]⟩) ∧
    ∀ (head : T) (tail : List T),
      tryDequeue (⟨head :: tail⟩ : ThreadSafeQueue T) = (some head, ⟨tail⟩) :=
  ⟨rfl, fun _ _ => rfl⟩

theorem applyOp_accounted (op : Op T) (c c1 : Counted T) (h : Accounted c)
    (hop : applyOp op c = some c1) : Accounted c1 := by
  obtain ⟨⟨l⟩, e, d⟩ := c
  simp only [Accounted, size] at h
  cases op with
  | enqueue item =>
    simp only [applyOp, Option.some.injEq] at hop
    subst hop
    simp only [Accounted, size, enqueue, List.length_append, List.length_singleton]
    omega
  | dequeue =>
    cases l with
    | nil => simp [applyOp, dequeue] at hop
    | cons x l =>
      simp only [applyOp, dequeue, Option.some.injEq] at hop
      subst hop
      simp only [Accounted, size, List.length_cons] at h ⊢
      omega
  | tryDequeue =>
    cases l with
    | nil =>
      simp only [applyOp, tryDequeue, Option.some.injEq] at hop
      subst hop
      simpa [Accounted, size] using h
    | cons x l =>
      simp only [applyOp, tryDequeue, Option.some.injEq] at hop
      subst hop
      simp only [Accounted, size, List.length_cons] at h ⊢
      omega
  | size =>
    simp only [applyOp, Option.some.injEq] at hop
    subst hop
    simpa [Accounted, size] using h
  | isEmpty =>
    simp only [applyOp, Option.some.injEq] at hop
    subst hop
    simpa [Accounted, size] using h

theorem runOps_accounted (ops : List (Op T)) (c c1 : Counted T) (h : Accounted c)
    (hrun : runOps ops c = some c1) : Accounted c1 := by
  induction ops generalizing c with
  | nil =>
    simp only [runOps, Option.some.injEq] at hrun
    exact hrun ▸ h
  | cons op ops ih =>
    simp only [runOps] at hrun
    cases hop : applyOp op c with
    | none => simp [hop] at hrun
    | some c2 =>
      rw [hop] at hrun
      exact ih c2 (applyOp_accounted op c c2 h hop) hrun

/-- C5 (size accounting): after any finite sequence of calls (`enqueue`,
`dequeue` on a non-empty queue, `tryDequeue`, `size`, `isEmpty`) on an initially
empty queue, `size()` equals the number of `enqueue` calls minus the number of
`dequeue`/`tryDequeue` calls that returned an item, and `isEmpty()` is true
exactly when that number is 0. -/
theorem size_accounting (ops : List (Op T)) (c : Counted T)
    (hrun : runOps ops Counted.init = some c) :
    c.delivered ≤ c.enqueued ∧
    c.q.size = c.enqueued - c.delivered ∧
    (c.q.isEmpty = true ↔ c.enqueued - c.delivered = 0) := by
  have h : Accounted c :=
    runOps_accounted ops Counted.init c (by simp [Accounted, Counted.init, size, empty]) hrun
  obtain ⟨⟨l⟩, e, d⟩ := c
  simp only [Accounted, size] at h
  refine ⟨by simp only; omega, by simp only [size]; omega, ?_⟩
  simp only [isEmpty, List.isEmpty_iff]
  constructor
  · intro hl
    subst hl
    simp only [List.length_nil] at h
    omega
  · intro hz
    have : l.length = 0 := by omega
    exact List.length_eq_zero.mp this

/-- Scenario A of C5: `enqueue(42)` followed by a `dequeue` that returns 42
leaves `size() = 0`. -/
theorem size_accounting_witness :
    runOps [Op.enqueue (42 : Int), Op.dequeue] Counted.init = some ⟨⟨[]⟩, 1, 1⟩ ∧
    ((1 : Nat) ≤ 1 ∧ (⟨[]⟩ : ThreadSafeQueue Int).size = 1 - 1 ∧
      ((⟨[]⟩ : ThreadSafeQueue Int).isEmpty = true ↔ 1 - 1 = 0)) :=
  ⟨by decide, size_accounting [Op.enqueue (42 : Int), Op.dequeue] ⟨⟨[]⟩, 1, 1⟩ (by decide)⟩

end ThreadSafeQueue

/-! ### The producer/consumer scenario -/

/-- C2, as the claim states it, fails: on the stopped state with an empty queue
the locked push of the producer stores the item; the stored sequence changes
from `[]` to `[7]` and the flag plays no part. -/
theorem enqueue_after_shutdown_counterexample :
    (⟨[], true⟩ : Shared).stopProcessing = true ∧
    (producerPush 7 ⟨[], true⟩).taskQueue = [7] ∧
    (producerPush 7 ⟨[], true⟩).taskQueue ≠ (⟨[], true⟩ : Shared).taskQueue ∧
    (ThreadSafeQueue.enqueue (⟨[]⟩ : ThreadSafeQueue Int) 7).queue = [7] := by
  decide

/-- C2, amended: in every state in which the stop flag is set, and for every
item, the locked push of the producer appends the item at the tail of the stored
sequence and leaves the flag set; the push of `ThreadSafeQueue::enqueue`, which
has no flag at all, appends as well. -/
theorem enqueue_after_shutdown_appends (g : Shared) (item : Int)
    (hstop : g.stopProcessing = true) :
    (producerPush item g).taskQueue = g.taskQueue ++ [item] ∧
    (producerPush item g).stopProcessing = true ∧
    (ThreadSafeQueue.enqueue ⟨g.taskQueue⟩ item).queue = g.taskQueue ++ [item] :=
  ⟨rfl, hstop, rfl⟩

/-- The amended C2 on the stopped state holding `[1, 2]`. -/
theorem enqueue_after_shutdown_appends_witness :
    (producerPush 3 ⟨[1, 2], true⟩).taskQueue = [1, 2] ++ [3] ∧
    (producerPush 3 ⟨[1, 2], true⟩).stopProcessing = true ∧
    (ThreadSafeQueue.enqueue ⟨(⟨[1, 2], true⟩ : Shared).taskQueue⟩ 3).queue = [1, 2] ++ [3] :=
  enqueue_after_shutdown_appends ⟨[1, 2], true⟩ 3 rfl

/-- C9 (idempotent shutdown): setting the flag twice gives the same state as
setting it once; the operation is a total function, and it leaves the stored
sequence of items as it was. -/
theorem shutdown_idempotent (g : Shared) :
    shutdown (shutdown g) = shutdown g ∧
    (shutdown g).taskQueue = g.taskQueue ∧
    (shutdown g).stopProcessing = true :=
  ⟨rfl, rfl, rfl⟩

theorem step_keeps_stop (numTasks : Int) (e : Event) (s s1 : System)
    (hstep : step numTasks e s = some s1) (hstop : s.shared.stopProcessing = true) :
    s1.shared.stopProcessing = true := by
  cases e with
  | push id =>
    simp only [step] at hstep
    split at hstep
    · simp at hstep
    · split at hstep
      · simp only [Option.some.injEq] at hstep
        subst hstep
        simpa [producerPush] using hstop
      · simp at hstep
  | consume id =>
    simp only [step] at hstep
    split at hstep
    · split at hstep
      · rename_i t g hit
        simp only [Option.some.injEq] at hstep
        subst hstep
        simp only
        obtain ⟨⟨q, stop⟩, pn, cd, pu, po⟩ := s
        simp only at hstop
        subst hstop
        cases q with
        | nil => simp [consumerIteration, waitPredicate] at hit
        | cons x xs =>
          simp only [consumerIteration, waitPredicate] at hit
          simp at hit
          rw [← hit.2]
      · simp only [Option.some.injEq] at hstep
        subst hstep
        exact hstop
      · simp at hstep
    · simp at hstep
  | shutdown =>
    simp only [step, Option.some.injEq] at hstep
    subst hstep
    rfl

/-- C10 (closed is terminal): in the step relation made of producer pushes,
consumer pops and terminations, and shutdown, once the stop flag is set it is
set in every state reached later. -/
theorem stop_flag_stays_set (numTasks : Int) (es : List Event) (s s1 : System)
    (hstop : s.shared.stopProcessing = true)
    (hrun : run (step numTasks) es s = some s1) :
    s1.shared.stopProcessing = true := by
  induction es generalizing s with
  | nil =>
    simp only [run, Option.some.injEq] at hrun
    exact hrun ▸ hstop
  | cons e es ih =>
    simp only [run] at hrun
    cases hstep : step numTasks e s with
    | none => simp [hstep] at hrun
    | some s2 =>
      rw [hstep] at hrun
      exact ih s2 (step_keeps_stop numTasks e s s2 hstep hstop) hrun

/-- C10 on a run in which, after shutdown, a consumer still pops a task and a
producer still pushes one. -/
theorem stop_flag_stays_set_witness :
    run (step 2) [Event.consume 0, Event.push 0, Event.consume 0]
        ⟨⟨[0], true⟩, [1], [false], [0], []⟩
      = some ⟨⟨[], true⟩, [2], [false], [0, 1], [0, 1]⟩ ∧
    (⟨⟨[], true⟩, [2], [false], [0, 1], [0, 1]⟩ : System).shared.stopProcessing = true :=
  ⟨by decide,
    stop_flag_stays_set 2 [Event.consume 0, Event.push 0, Event.consume 0]
      ⟨⟨[0], true⟩, [1], [false], [0], []⟩ ⟨⟨[], true⟩, [2], [false], [0, 1], [0, 1]⟩
      rfl (by decide)⟩

theorem consumerIteration_task (g g1 : Shared) (t : Int)
    (h : consumerIteration g = .task t g1) :
    g.taskQueue = t :: g1.taskQueue ∧ g1.stopProcessing = g.stopProcessing := by
  obtain ⟨q, stop⟩ := g
  cases q with
  | nil => cases stop <;> simp [consumerIteration, waitPredicate] at h
  | cons x xs =>
    simp [consumerIteration, waitPredicate] at h
    obtain ⟨hx, hg⟩ := h
    subst hx hg
    exact ⟨rfl, rfl⟩

theorem consumerIteration_closed (g : Shared) (h : consumerIteration g = .closed) :
    g.stopProcessing = true ∧ g.taskQueue = [] := by
  obtain ⟨q, stop⟩ := g
  cases q <;> cases stop <;> simp_all [consumerIteration, waitPredicate]

theorem step_keeps_order (numTasks : Int) (e : Event) (s s1 : System)
    (hstep : step numTasks e s = some s1)
    (hord : s.popped ++ s.shared.taskQueue = s.pushed) :
    s1.popped ++ s1.shared.taskQueue = s1.pushed := by
  cases e with
  | push id =>
    simp only [step] at hstep
    split at hstep
    · simp at hstep
    · split at hstep
      · simp only [Option.some.injEq] at hstep
        subst hstep
        simp only [producerPush, ← List.append_assoc, hord]
      · simp at hstep
  | consume id =>
    simp only [step] at hstep
    split at hstep
    · split at hstep
      · rename_i t g hit
        simp only [Option.some.injEq] at hstep
        subst hstep
        have hq := (consumerIteration_task _ _ _ hit).1
        rw [hq] at hord
        simpa using hord
      · simp only [Option.some.injEq] at hstep
        subst hstep
        exact hord
      · simp at hstep
    · simp at hstep
  | shutdown =>
    simp only [step, Option.some.injEq] at hstep
    subst hstep
    exact hord

theorem run_keeps_order (numTasks : Int) (es : List Event) (s s1 : System)
    (hord : s.popped ++ s.shared.taskQueue = s.pushed)
    (hrun : run (step numTasks) es s = some s1) :
    s1.popped ++ s1.shared.taskQueue = s1.pushed := by
  induction es generalizing s with
  | nil =>
    simp only [run, Option.some.injEq] at hrun
    exact hrun ▸ hord
  | cons e es ih =>
    simp only [run] at hrun
    cases hstep : step numTasks e s with
    | none => simp [hstep] at hrun
    | some s2 =>
      rw [hstep] at hrun
      exact ih s2 (step_keeps_order numTasks e s s2 hstep hord) hrun

/-- C7 (global order): for any numbers of producers and consumers and every
interleaving of their critical sections (and of shutdown), the tasks in the
order in which they were popped, followed by the current content of the queue,
are the tasks in the order in which their pushes took the lock. -/
theorem pop_order_is_push_order (numProducers numConsumers : Nat) (numTasks : Int)
    (es : List Event) (s : System)
    (hrun : run (step numTasks) es (System.init numProducers numConsumers) = some s) :
    s.popped ++ s.shared.taskQueue = s.pushed :=
  run_keeps_order numTasks es _ s rfl hrun

/-- C7 on an interleaving of two producers and two consumers. -/
theorem pop_order_is_push_order_witness :
    run (step 2)
        [Event.push 1, Event.push 0, Event.consume 1, Event.push 0, Event.push 1,
          Event.consume 0, Event.consume 1]
        (System.init 2 2)
      = some ⟨⟨[1], false⟩, [2, 2], [false, false], [0, 0, 1, 1], [0, 0, 1]⟩ ∧
    [0, 0, 1] ++ [1] = ([0, 0, 1, 1] : List Int) :=
  ⟨by decide,
    pop_order_is_push_order 2 2 2
      [Event.push 1, Event.push 0, Event.consume 1, Event.push 0, Event.push 1,
        Event.consume 0, Event.consume 1]
      ⟨⟨[1], false⟩, [2, 2], [false, false], [0, 0, 1, 1], [0, 0, 1]⟩ (by decide)⟩

theorem tasksUpTo_succ (i : Nat) : tasksUpTo (i + 1) = tasksUpTo i ++ [(i : Int)] := by
  simp [tasksUpTo, List.range_succ]

theorem tasksPushed_set (l : List Nat) (id i : Nat) (h : l[id]? = some i) :
    tasksPushed (l.set id (i + 1)) = tasksPushed l + {(i : Int)} := by
  induction l generalizing id with
  | nil => simp at h
  | cons k ks ih =>
    cases id with
    | zero =>
      simp only [List.getElem?_cons_zero, Option.some.injEq] at h
      subst h
      simp only [List.set_cons_zero, tasksPushed, tasksUpTo_succ]
      rw [← Multiset.coe_add, ← Multiset.coe_singleton]
      abel
    | succ n =>
      simp only [List.getElem?_cons_succ] at h
      simp only [List.set_cons_succ, tasksPushed, ih n h]
      abel

theorem tasksPushed_all (l : List Nat) (numTasks : Nat) (h : ∀ i ∈ l, i = numTasks) :
    tasksPushed l = l.length • (tasksUpTo numTasks : Multiset Int) := by
  induction l with
  | nil => simp [tasksPushed]
  | cons k ks ih =>
    have hk : k = numTasks := h k (List.mem_cons_self _ _)
    have hks : ∀ i ∈ ks, i = numTasks := fun i hi => h i (List.mem_cons_of_mem _ hi)
    simp only [tasksPushed, ih hks, hk, List.length_cons, succ_nsmul]
    abel

theorem mainStep_keeps_inv (numProducers numTasks numConsumers : Nat) (e : Event)
    (s s1 : System) (hstep : mainStep numTasks e s = some s1)
    (hinv : MainInv numProducers numTasks numConsumers s) :
    MainInv numProducers numTasks numConsumers s1 := by
  obtain ⟨hord, hmul, hlen, hle, hjoin, hclen, hdone⟩ := hinv
  cases e with
  | push id =>
    simp only [mainStep, step] at hstep
    split at hstep
    · simp at hstep
    · rename_i i hi
      split at hstep
      · rename_i hlt
        simp only [Option.some.injEq] at hstep
        subst hstep
        have hmem : i ∈ s.producerNext := List.getElem?_mem hi
        have hlt1 : i < numTasks := by omega
        have hnostop : ¬ s.shared.stopProcessing = true := by
          intro hs
          have := hjoin hs i hmem
          omega
        refine ⟨?_, ?_, ?_, ?_, ?_, hclen, ?_⟩
        · simp only [producerPush, ← List.append_assoc, hord]
        · simp only [tasksPushed_set _ _ _ hi, ← hmul]
          rw [← Multiset.coe_add, ← Multiset.coe_singleton]
        · simpa using hlen
        · intro j hj
          rcases List.mem_or_eq_of_mem_set hj with hj | hj
          · exact hle j hj
          · omega
        · intro hs
          exact absurd hs hnostop
        · intro hd
          exact absurd (hdone hd).1 hnostop
      · simp at hstep
  | consume id =>
    simp only [mainStep, step] at hstep
    split at hstep
    · split at hstep
      · rename_i t g hit
        simp only [Option.some.injEq] at hstep
        subst hstep
        obtain ⟨hq, hs⟩ := consumerIteration_task _ _ _ hit
        refine ⟨?_, hmul, hlen, hle, ?_, hclen, ?_⟩
        · rw [hq] at hord
          simpa using hord
        · intro hstop
          exact hjoin (hs ▸ hstop)
        · intro hd
          have := (hdone hd).2
          rw [hq] at this
          simp at this
      · rename_i hit
        simp only [Option.some.injEq] at hstep
        subst hstep
        refine ⟨hord, hmul, hlen, hle, hjoin, ?_, ?_⟩
        · simpa using hclen
        · intro _
          exact consumerIteration_closed _ hit
      · simp at hstep
    · simp at hstep
  | shutdown =>
    simp only [mainStep, step] at hstep
    split at hstep
    · rename_i hj
      simp only [Option.some.injEq] at hstep
      subst hstep
      refine ⟨hord, hmul, hlen, hle, ?_, hclen, ?_⟩
      · intro _ i hi
        simp only [producersJoined, List.all_eq_true, decide_eq_true_eq] at hj
        have h1 := hj i hi
        have h2 := hle i hi
        omega
      · intro hd
        exact ⟨rfl, (hdone hd).2⟩
    · simp at hstep

theorem init_inv (numProducers numTasks numConsumers : Nat) :
    MainInv numProducers numTasks numConsumers (System.init numProducers numConsumers) := by
  refine ⟨rfl, ?_, by simp [System.init], ?_, ?_, by simp [System.init], ?_⟩
  · have h : ∀ n : Nat, tasksPushed (List.replicate n 0) = 0 := by
      intro n
      induction n with
      | zero => rfl
      | succ n ih => simp [List.replicate_succ, tasksPushed, ih, tasksUpTo]
    simp [System.init, h]
  · intro i hi
    simp only [System.init, List.mem_replicate] at hi
    omega
  · intro hs
    simp [System.init] at hs
  · intro hd
    simp [System.init, List.mem_replicate] at hd

theorem run_keeps_inv (numProducers numTasks numConsumers : Nat) (es : List Event)
    (s s1 : System) (hinv : MainInv numProducers numTasks numConsumers s)
    (hrun : run (mainStep numTasks) es s = some s1) :
    MainInv numProducers numTasks numConsumers s1 := by
  induction es generalizing s with
  | nil =>
    simp only [run, Option.some.injEq] at hrun
    exact hrun ▸ hinv
  | cons e es ih =>
    simp only [run] at hrun
    cases hstep : mainStep numTasks e s with
    | none => simp [hstep] at hrun
    | some s2 =>
      rw [hstep] at hrun
      exact ih s2 (mainStep_keeps_inv _ _ _ e s s2 hstep hinv) hrun

/-- C6, as the claim states it for every number of consumers, fails with no
consumer at all: one producer pushes its one task, `main` joins it and sets the
flag; all (zero) consumers have terminated, yet nothing was consumed instead of
`1 × 1` task, and the queue still holds the task. -/
theorem no_loss_counterexample :
    run (mainStep 1) [Event.push 0, Event.shutdown] (System.init 1 0)
      = some ⟨⟨[0], true⟩, [1], [], [0], []⟩ ∧
    (∀ d ∈ (⟨⟨[0], true⟩, [1], [], [0], []⟩ : System).consumerDone, d = true) ∧
    (⟨⟨[0], true⟩, [1], [], [0], []⟩ : System).popped.length ≠ 1 * 1 ∧
    (⟨⟨[0], true⟩, [1], [], [0], []⟩ : System).shared.taskQueue ≠ [] := by
  decide

/-- C6, amended (no loss, no duplication): for all numbers of producers, tasks and
consumers and every interleaving in which the flag is set only after all
producers have pushed all their tasks, at every reachable state the multiset
of the tasks consumed so far plus the tasks still in the queue is the multiset
of the tasks pushed so far.  When there is at least one consumer and all
consumers have terminated, exactly `numProducers * numTasks` tasks were
consumed, the consumed multiset is the produced multiset, which holds every
task `0 .. numTasks - 1` once per producer, and the queue is empty. -/
theorem no_loss_no_duplication (numProducers numTasks numConsumers : Nat)
    (es : List Event) (s : System)
    (hrun : run (mainStep numTasks) es (System.init numProducers numConsumers) = some s) :
    (s.popped : Multiset Int) + (s.shared.taskQueue : Multiset Int) = (s.pushed : Multiset Int) ∧
    (0 < numConsumers → (∀ d ∈ s.consumerDone, d = true) →
      s.popped.length = numProducers * numTasks ∧
      (s.popped : Multiset Int) = (s.pushed : Multiset Int) ∧
      (s.pushed : Multiset Int) = numProducers • (tasksUpTo numTasks : Multiset Int) ∧
      s.shared.taskQueue = []) := by
  obtain ⟨hord, hmul, hlen, _, hjoin, hclen, hdone⟩ :=
    run_keeps_inv numProducers numTasks numConsumers es _ s (init_inv _ _ _) hrun
  refine ⟨?_, ?_⟩
  · rw [Multiset.coe_add, hord]
  · intro hpos hall
    have hne : s.consumerDone ≠ [] := by
      intro hnil
      rw [hnil] at hclen
      simp at hclen
      omega
    obtain ⟨d, hd⟩ := List.exists_mem_of_ne_nil _ hne
    have htrue : true ∈ s.consumerDone := hall d hd ▸ hd
    obtain ⟨hstop, hq⟩ := hdone htrue
    have hpp : s.popped = s.pushed := by simpa [hq] using hord
    have hall : (s.pushed : Multiset Int) = numProducers • (tasksUpTo numTasks : Multiset Int) := by
      rw [hmul, tasksPushed_all _ numTasks (hjoin hstop), hlen]
    refine ⟨?_, by rw [hpp], hall, hq⟩
    have hcard := congrArg Multiset.card hall
    simp only [Multiset.coe_card, Multiset.card_nsmul, tasksUpTo, List.length_map,
      List.length_range, smul_eq_mul] at hcard
    rw [hpp]
    exact hcard

/-- Scenario B for the amended C6: 2 producers of 5 tasks, 3 consumers; at the end
10 tasks are consumed and the queue is empty. -/
theorem no_loss_no_duplication_witness :
    run (mainStep 5) scenarioB (System.init 2 3) = some scenarioBEnd ∧
    (scenarioBEnd.popped : Multiset Int) + (scenarioBEnd.shared.taskQueue : Multiset Int)
      = (scenarioBEnd.pushed : Multiset Int) ∧
    scenarioBEnd.popped.length = 2 * 5 ∧
    (scenarioBEnd.popped : Multiset Int) = (scenarioBEnd.pushed : Multiset Int) ∧
    (scenarioBEnd.pushed : Multiset Int) = 2 • (tasksUpTo 5 : Multiset Int) ∧
    scenarioBEnd.shared.taskQueue = [] :=
  ⟨by decide,
    (no_loss_no_duplication 2 5 3 scenarioB scenarioBEnd (by decide)).1,
    (no_loss_no_duplication 2 5 3 scenarioB scenarioBEnd (by decide)).2 (by decide)
      (by decide)⟩

/-! ### `parallelSum` -/

theorem map_getD_range (data : List Int) :
    (List.range data.length).map (fun i => data.getD i 0) = data := by
  apply List.ext_getElem
  · simp
  · intro i h1 h2
    simp [List.getD_eq_getElem?_getD, List.getElem?_eq_getElem h2]

theorem chunkSize_eq (dataSize numThreads : Nat) (hthreads : 1 ≤ numThreads)
    (hfit : dataSize + numThreads ≤ sizeMod) :
    chunkSize dataSize numThreads = some ((dataSize + numThreads - 1) / numThreads) := by
  have h : sizeSub (sizeAdd dataSize numThreads) 1 = dataSize + numThreads - 1 := by
    unfold sizeSub sizeAdd sizeMod at *
    omega
  have h0 : numThreads ≠ 0 := by omega
  simp [chunkSize, h, h0]

theorem chunk_covers (dataSize numThreads : Nat) (hthreads : 1 ≤ numThreads) :
    dataSize ≤ numThreads * ((dataSize + numThreads - 1) / numThreads) := by
  have h := Nat.lt_mul_div_succ (dataSize + numThreads - 1)
    (Nat.lt_of_lt_of_le Nat.zero_lt_one hthreads)
  rw [Nat.mul_add, Nat.mul_one] at h
  omega

theorem chunkIndices_lt (dataSize chunk threadID i : Nat)
    (hi : i ∈ chunkIndices dataSize chunk threadID) : i < dataSize := by
  simp only [chunkIndices, chunkEnd, List.mem_range'_1] at hi
  omega

theorem chunkIndices_eq (dataSize numThreads threadID : Nat)
    (hfit : dataSize + numThreads ≤ sizeMod) (hid : threadID < numThreads) :
    chunkIndices dataSize ((dataSize + numThreads - 1) / numThreads) threadID =
      List.range' (threadID * ((dataSize + numThreads - 1) / numThreads))
        (min (threadID * ((dataSize + numThreads - 1) / numThreads)
            + (dataSize + numThreads - 1) / numThreads) dataSize
          - threadID * ((dataSize + numThreads - 1) / numThreads)) := by
  have hmul : numThreads * ((dataSize + numThreads - 1) / numThreads)
      ≤ dataSize + numThreads - 1 := Nat.mul_div_le _ _
  have hle : (threadID + 1) * ((dataSize + numThreads - 1) / numThreads)
      ≤ numThreads * ((dataSize + numThreads - 1) / numThreads) :=
    Nat.mul_le_mul_right _ hid
  rw [Nat.add_mul, Nat.one_mul] at hle
  generalize (dataSize + numThreads - 1) / numThreads = c at *
  have hs : chunkStart c threadID = threadID * c := by
    unfold chunkStart sizeMul
    apply Nat.mod_eq_of_lt
    unfold sizeMod at *
    omega
  have he : sizeAdd (threadID * c) c = threadID * c + c := by
    unfold sizeAdd
    apply Nat.mod_eq_of_lt
    unfold sizeMod at *
    omega
  simp only [chunkIndices, chunkEnd, hs, he]

theorem flatMap_range_chunks (dataSize c k : Nat) :
    (List.range k).flatMap
        (fun t => List.range' (t * c) (min (t * c + c) dataSize - t * c))
      = List.range (min (k * c) dataSize) := by
  induction k with
  | zero => simp
  | succ k ih =>
    rw [List.range_succ, List.flatMap_append, ih, List.flatMap_singleton, Nat.add_mul,
      Nat.one_mul]
    rcases Nat.le_total (k * c) dataSize with h | h
    · rw [Nat.min_eq_left h, List.range_eq_range', List.range_eq_range']
      have := List.range'_append_1 0 (k * c) (min (k * c + c) dataSize - k * c)
      rw [Nat.zero_add] at this
      rw [this]
      congr 1
      omega
    · have h1 : min (k * c + c) dataSize - k * c = 0 := by omega
      have h2 : min (k * c + c) dataSize = min (k * c) dataSize := by omega
      rw [h1, h2]
      simp

theorem flatMap_chunkIndices (dataSize numThreads : Nat) (hthreads : 1 ≤ numThreads)
    (hfit : dataSize + numThreads ≤ sizeMod) :
    (List.range numThreads).flatMap
        (chunkIndices dataSize ((dataSize + numThreads - 1) / numThreads))
      = List.range dataSize := by
  have h1 : (List.range numThreads).map
        (chunkIndices dataSize ((dataSize + numThreads - 1) / numThreads))
      = (List.range numThreads).map (fun t =>
          List.range' (t * ((dataSize + numThreads - 1) / numThreads))
            (min (t * ((dataSize + numThreads - 1) / numThreads)
                + (dataSize + numThreads - 1) / numThreads) dataSize
              - t * ((dataSize + numThreads - 1) / numThreads))) := by
    apply List.map_congr_left
    intro t ht
    exact chunkIndices_eq dataSize numThreads t hfit (List.mem_range.mp ht)
  rw [List.flatMap_def, h1, ← List.flatMap_def, flatMap_range_chunks]
  rw [Nat.min_eq_right (chunk_covers dataSize numThreads hthreads)]

theorem sum_int_bounds (l : List Int)
    (hint : ∀ x ∈ l, -2147483648 ≤ x ∧ x ≤ 2147483647) :
    -2147483648 * (l.length : Int) ≤ l.sum ∧ l.sum ≤ 2147483647 * (l.length : Int) := by
  induction l with
  | nil => simp
  | cons x xs ih =>
    have hx := hint x (List.mem_cons_self _ _)
    have hxs := ih (fun y hy => hint y (List.mem_cons_of_mem _ hy))
    simp only [List.sum_cons, List.length_cons, Nat.cast_add, Nat.cast_one]
    omega

theorem getD_int_range (data : List Int)
    (hint : ∀ x ∈ data, -2147483648 ≤ x ∧ x ≤ 2147483647) (i : Nat) :
    -2147483648 ≤ data.getD i 0 ∧ data.getD i 0 ≤ 2147483647 := by
  rcases Nat.lt_or_ge i data.length with h | h
  · rw [List.getD_eq_getElem _ _ h]
    exact hint _ (List.getElem_mem h)
  · rw [List.getD_eq_default _ _ h]
    omega

theorem sumLoop_ok (data : List Int)
    (hint : ∀ x ∈ data, -2147483648 ≤ x ∧ x ≤ 2147483647)
    (indices : List Nat) (localSum : Int) (m : Nat)
    (hidx : ∀ i ∈ indices, i < data.length)
    (hlo : -2147483648 * (m : Int) ≤ localSum) (hhi : localSum ≤ 2147483647 * (m : Int))
    (hlen : m + indices.length ≤ 4294967296) :
    sumLoop data indices localSum
      = .ok (localSum + (indices.map (fun i => data.getD i 0)).sum) := by
  induction indices generalizing localSum m with
  | nil => simp [sumLoop]
  | cons i rest ih =>
    have hi : i < data.length := hidx i (List.mem_cons_self _ _)
    have hx := hint _ (List.getElem_mem hi)
    simp only [List.length_cons] at hlen
    have hfits : -9223372036854775808 ≤ localSum + data[i]
        ∧ localSum + data[i] ≤ 9223372036854775807 := by
      constructor <;> omega
    have hrest := ih (localSum + data[i]) (m + 1)
      (fun j hj => hidx j (List.mem_cons_of_mem _ hj))
      (by push_cast; omega) (by push_cast; omega) (by omega)
    simp only [sumLoop, List.getElem?_eq_getElem hi, addLL, hfits, and_self, if_true,
      hrest, List.map_cons, List.sum_cons, List.getD_eq_getElem _ _ hi]
    rw [add_assoc]

theorem worker_ok (data : List Int)
    (hint : ∀ x ∈ data, -2147483648 ≤ x ∧ x ≤ 2147483647)
    (hlen : data.length ≤ 4294967296) (chunk threadID : Nat) :
    worker data chunk threadID
      = .ok (((chunkIndices data.length chunk threadID).map
          (fun i => data.getD i 0)).sum) := by
  have hcount : (chunkIndices data.length chunk threadID).length ≤ data.length := by
    simp only [chunkIndices, chunkEnd, List.length_range']
    omega
  have h := sumLoop_ok data hint (chunkIndices data.length chunk threadID) 0 0
    (fun i hi => chunkIndices_lt _ _ _ i hi) (by simp) (by simp) (by omega)
  rw [worker, h, Int.zero_add]

theorem runWorkers_ok (data : List Int)
    (hint : ∀ x ∈ data, -2147483648 ≤ x ∧ x ≤ 2147483647)
    (hlen : data.length ≤ 4294967296) (chunk : Nat) (ids : List Nat) :
    runWorkers data chunk ids
      = .ok (ids.map (fun t => ((chunkIndices data.length chunk t).map
          (fun i => data.getD i 0)).sum)) := by
  induction ids with
  | nil => rfl
  | cons t rest ih => simp [runWorkers, worker_ok data hint hlen, ih]

theorem totalLoop_ok (data : List Int)
    (hint : ∀ x ∈ data, -2147483648 ≤ x ∧ x ≤ 2147483647)
    (g : Nat → List Nat) (ids : List Nat) (totalSum : Int) (m : Nat)
    (hlo : -2147483648 * (m : Int) ≤ totalSum) (hhi : totalSum ≤ 2147483647 * (m : Int))
    (hlen : m + (ids.flatMap g).length ≤ 4294967296) :
    totalLoop (ids.map (fun t => ((g t).map (fun i => data.getD i 0)).sum)) totalSum
      = .ok (totalSum + ((ids.flatMap g).map (fun i => data.getD i 0)).sum) := by
  induction ids generalizing totalSum m with
  | nil => simp [totalLoop]
  | cons t rest ih =>
    simp only [List.flatMap_cons, List.length_append] at hlen
    have hb := sum_int_bounds ((g t).map (fun i => data.getD i 0))
      (by
        intro x hx
        obtain ⟨i, _, rfl⟩ := List.mem_map.mp hx
        exact getD_int_range data hint i)
    rw [List.length_map] at hb
    have hfits : -9223372036854775808 ≤ totalSum + ((g t).map (fun i => data.getD i 0)).sum
        ∧ totalSum + ((g t).map (fun i => data.getD i 0)).sum ≤ 9223372036854775807 := by
      constructor <;> omega
    have hrest := ih (totalSum + ((g t).map (fun i => data.getD i 0)).sum)
      (m + (g t).length) (by push_cast; omega) (by push_cast; omega) (by omega)
    simp only [List.map_cons, totalLoop, addLL, hfits, and_self, if_true, hrest,
      List.flatMap_cons, List.map_append, List.sum_append]
    rw [add_assoc]

/-- C8, as the claim states it for every `numThreads ≥ 1`, fails: for one
element and `2^61` threads `chunkSize` is 1, and then the construction of
`partialSums(numThreads, 0)` asks for more than `max_size()` slots; the call
ends in `std::length_error` and does not return the sum 1. -/
theorem parallelSum_counterexample :
    (1 : Nat) ≤ 2305843009213693952 ∧
    chunkSize ([1] : List Int).length 2305843009213693952 = some 1 ∧
    parallelSum exampleHost [1] 2305843009213693952 = .fail .lengthError ∧
    parallelSum exampleHost [1] 2305843009213693952 ≠ .ok ([1] : List Int).sum := by
  decide

/-- C8, amended (parallelSum): on every host, for every vector `data` of at most
`2^32` `int`s (so that no `long long` sum overflows) and every
`numThreads ≥ 1`: when `numThreads` is at most `max_size()`, the allocator
provides that many slots and that many threads can be started, `chunkSize` is
the ceiling of `data.size() / numThreads`, the chunks of the threads, taken in
thread order, list every index of `data` exactly once, and `parallelSum`
returns the sum of all elements, also for `numThreads` above the data size and
for empty data; when `numThreads` exceeds `max_size()`, the call ends in
`std::length_error`. -/
theorem parallelSum_eq_sum (host : Host) (data : List Int) (numThreads : Nat)
    (hthreads : 1 ≤ numThreads)
    (hint : ∀ x ∈ data, -2147483648 ≤ x ∧ x ≤ 2147483647)
    (hlen : data.length ≤ 4294967296) :
    (numThreads ≤ host.maxSize → numThreads ≤ host.maxAlloc →
        numThreads ≤ host.maxThreads →
      chunkSize data.length numThreads
        = some ((data.length + numThreads - 1) / numThreads) ∧
      (List.range numThreads).flatMap
          (chunkIndices data.length ((data.length + numThreads - 1) / numThreads))
        = List.range data.length ∧
      parallelSum host data numThreads = .ok data.sum) ∧
    (host.maxSize < numThreads →
      parallelSum host data numThreads = .fail .lengthError) := by
  constructor
  · intro hsize halloc hstart
    have hfit : data.length + numThreads ≤ sizeMod := by
      have hhost := host.addressable
      unfold sizeMod at *
      omega
    have hchunk := chunkSize_eq data.length numThreads hthreads hfit
    have hcover := flatMap_chunkIndices data.length numThreads hthreads hfit
    refine ⟨hchunk, hcover, ?_⟩
    have htotal := totalLoop_ok data hint
      (chunkIndices data.length ((data.length + numThreads - 1) / numThreads))
      (List.range numThreads) 0 0 (by simp) (by simp)
      (by rw [hcover, List.length_range]; omega)
    rw [hcover, map_getD_range, Int.zero_add] at htotal
    simp only [parallelSum, hchunk, Nat.not_lt.mpr hsize, Nat.not_lt.mpr halloc,
      Nat.not_lt.mpr hstart, if_false,
      runWorkers_ok data hint hlen, htotal]
  · intro hbig
    have h0 : numThreads ≠ 0 := by omega
    simp [parallelSum, chunkSize, h0, hbig]

/-- The amended C8 on the call of `main`: 1,000,000 ones summed by 4 threads give
1000000; also 5 threads on 3 elements, 3 threads on no element, more threads
than `max_size()`, more threads than the host can start, and no thread at
all. -/
theorem parallelSum_eq_sum_witness :
    parallelSum exampleHost (List.replicate 1000000 (1 : Int)) 4 = .ok 1000000 ∧
    parallelSum exampleHost [3, -1, 4] 5 = .ok 6 ∧
    parallelSum exampleHost [] 3 = .ok 0 ∧
    parallelSum exampleHost [3, -1, 4] 2305843009213693952 = .fail .lengthError ∧
    parallelSum exampleHost [3, -1, 4] 40000 = .fail .threadStart ∧
    parallelSum exampleHost [3, -1, 4] 0 = .fail .divisionByZero := by
  have hint : ∀ x ∈ List.replicate 1000000 (1 : Int),
      -2147483648 ≤ x ∧ x ≤ 2147483647 := by
    intro x hx
    rw [List.eq_of_mem_replicate hx]
    decide
  have hlen : (List.replicate 1000000 (1 : Int)).length ≤ 4294967296 := by
    rw [List.length_replicate]
    decide
  have hsum : (List.replicate 1000000 (1 : Int)).sum = 1000000 := by
    rw [List.sum_replicate, nsmul_eq_mul, mul_one]
    rfl
  have h := ((parallelSum_eq_sum exampleHost (List.replicate 1000000 (1 : Int)) 4
    (by decide) hint hlen).1 (by decide) (by decide) (by decide)).2.2
  rw [hsum] at h
  have h5 := ((parallelSum_eq_sum exampleHost [3, -1, 4] 5
    (by decide) (by decide) (by decide)).1 (by decide) (by decide) (by decide)).2.2
  have hbig := (parallelSum_eq_sum exampleHost [3, -1, 4] 2305843009213693952
    (by decide) (by decide) (by decide)).2 (by decide)
  exact ⟨h, h5, by decide, hbig, by decide, by decide⟩

end CPrep
